import Mathlib

/-!
Verification of the resumable chunked-upload client
(`frontend/src/services/chunkedUpload.ts`).

The client code is shallowly embedded: a file is a list of bytes, the
byte range computed by `uploadChunk` becomes `chunkBody`, the pending-set
computation of `uploadLargeFile` becomes `pendingOf`, the batch loop of
`uploadChunksParallel` becomes `chunksOf`, and a whole run of
`uploadLargeFile` against a server oracle becomes `uploadLargeFileRun`,
which records the sequence of endpoint calls it makes together with its
result.  Fine-grained interleaving of one run (issue / settle / progress
events) is modelled by `runTrace`, parametrised by the order in which the
in-flight requests of each batch settle.
-/

namespace ChunkedUpload

/-- Byte content of a file; a byte is modelled as a natural number. -/
abbrev Bytes := List ℕ

/-- Semantics of `file.slice(s, e)` on a `Blob`/`File`: the bytes from
position `s` (inclusive) to `e` (exclusive), both clamped to the file
length; `drop`/`take` clamp exactly the same way. -/
def fileSlice (file : Bytes) (s e : ℕ) : Bytes :=
  (file.drop s).take (e - s)

/-- The byte range sent by `uploadChunk` (chunkedUpload.ts lines 51-53):
`start = chunkIndex * chunkSize`, `end = min(start + chunkSize, file.size)`,
body `file.slice(start, end)`. -/
def chunkBody (file : Bytes) (chunkSize chunkIndex : ℕ) : Bytes :=
  fileSlice file (chunkIndex * chunkSize)
    (min (chunkIndex * chunkSize + chunkSize) file.length)

/-- Chunk count for a given total size and chunk size:
`ceil(totalSize / chunkSize)`, as the spec defines `total_chunks`. -/
def totalChunks (totalSize chunkSize : ℕ) : ℕ :=
  (totalSize + chunkSize - 1) / chunkSize

/-- The worker-pool width used by the client (chunkedUpload.ts line 3). -/
def PARALLEL_CHUNKS : ℕ := 3

/-- The pending-chunk computation of `uploadLargeFile` (lines 108-110):
`Array.from({length: total_chunks}, (_, i) => i)` builds `[0, …, N-1]` and
`.filter(i => !completedSet.has(i))` keeps the indices not reported by the
status call. -/
def pendingOf (total_chunks : ℕ) (completed_chunks : List ℕ) : List ℕ :=
  (List.range total_chunks).filter (fun i => !(completed_chunks.contains i))

/-- Fuel-indexed helper for `chunksOf`; the fuel only serves to make the
recursion structural (each step consumes at least one list element, so
any fuel at least the list length gives the same result). -/
def chunksOfFuel (P : ℕ) : ℕ → List ℕ → List (List ℕ)
  | 0, _ => []
  | _ + 1, [] => []
  | fuel + 1, x :: xs =>
    if P = 0 then []
    else (x :: xs).take P :: chunksOfFuel P fuel ((x :: xs).drop P)

/-- The batch decomposition performed by the loop of `uploadChunksParallel`
(lines 83-84): `for (let i = 0; i < pending.length; i += parallelism)`
with `batch = pending.slice(i, i + parallelism)`.  The source never runs
the loop with `parallelism = 0` (it is always `PARALLEL_CHUNKS = 3`); this
model returns `[]` in that unreachable case to stay total. -/
def chunksOf (P : ℕ) (l : List ℕ) : List (List ℕ) :=
  chunksOfFuel P l.length l

/-- Endpoints hit by `uploadLargeFile`, in the order the code awaits them. -/
inductive Call where
  | initCall : Call
  | statusCall : Call
  | chunkCall (index : ℕ) : Call
  | completeCall : Call
deriving DecidableEq, Repr

/-- Server oracle for one run of `uploadLargeFile`: the
`completed_chunks` list returned by the status endpoint, whether the POST
for each chunk index returns `ok`, and whether the completion POST
returns `ok`.  The init and status calls are assumed to succeed (their
failure paths throw before any chunk is sent and are not the subject of
the claims). -/
structure Server where
  statusChunks : List ℕ
  chunkOk : ℕ → Bool
  completeOk : Bool

/-- Sequential batch loop of `uploadChunksParallel` (lines 83-93) against
the oracle: returns the chunk indices whose deliveries were issued and,
if some delivery in a batch returned non-ok, the index whose rejection
fails the `Promise.all` of that batch (modelled as the first failing
index in batch order; which rejection wins the race is
scheduler-dependent, but every request of the failing batch has already
been issued, and no later batch is started). -/
def runBatches (chunkOk : ℕ → Bool) : List (List ℕ) → List ℕ × Option ℕ
  | [] => ([], none)
  | b :: bs =>
    match b.find? (fun i => !(chunkOk i)) with
    | some i => (b, some i)
    | none =>
      let r := runBatches chunkOk bs
      (b ++ r.1, r.2)

/-- One run of `uploadLargeFile` (lines 96-137) against a server oracle:
init, then status, then the pending chunks in batches of
`PARALLEL_CHUNKS`; if every delivery is ok a single completion POST is
made, and a non-ok completion throws `Failed to complete upload`; if some
delivery is non-ok the function throws `Failed to upload chunk i` without
ever calling the completion endpoint.  Returns the list of endpoint
calls made, in order, together with the result. -/
def uploadLargeFileRun (total_chunks : ℕ) (srv : Server) :
    List Call × Except String Unit :=
  let pending := pendingOf total_chunks srv.statusChunks
  let r := runBatches srv.chunkOk (chunksOf PARALLEL_CHUNKS pending)
  match r.2 with
  | some i =>
    (Call.initCall :: Call.statusCall :: r.1.map Call.chunkCall,
      Except.error ("Failed to upload chunk " ++ toString i))
  | none =>
    (Call.initCall :: Call.statusCall ::
        (r.1.map Call.chunkCall ++ [Call.completeCall]),
      if srv.completeOk then Except.ok ()
      else Except.error "Failed to complete upload")

/-- Observable client-side events of one successful transfer run:
a chunk request being issued (the `fetch` dispatched when the async
closure of `batch.map` starts), a chunk request settling (the `await`
resuming), and an invocation of the `onProgress` callback with the
values the code passes it (lines 86-92). -/
inductive Event where
  | issue (index : ℕ) : Event
  | settle (index : ℕ) : Event
  | progress (completed total : ℕ) : Event
deriving DecidableEq, Repr

/-- Events produced while the in-flight requests of one batch settle in
the order `ord`: each settle is immediately followed by the synchronous
`completed++; onProgress(completed, total)` of lines 89-90, `c` being the
number of chunks settled in this run before this batch. -/
def settleEvents : List ℕ → ℕ → ℕ → List Event
  | [], _, _ => []
  | i :: rest, c, total =>
    Event.settle i :: Event.progress (c + 1) total :: settleEvents rest (c + 1) total

/-- Events of the batch loop: for each batch paired with the order in
which its requests settle, all issues of the batch happen first (the
`batch.map` dispatches every fetch before any of them resolves), then its
settles interleaved with progress callbacks; the next batch starts only
after the `await Promise.all` of line 86 resolves. -/
def batchEvents : List (List ℕ × List ℕ) → ℕ → ℕ → List Event
  | [], _, _ => []
  | (b, ord) :: rest, c, total =>
    b.map Event.issue ++ settleEvents ord c total
      ++ batchEvents rest (c + ord.length) total

/-- Full event trace of one successful `uploadChunksParallel` run over the
pending list, parametrised by the scheduler: `sched` gives, for each
batch, the order in which its requests settle (a permutation of the
batch). -/
def runTrace (pending : List ℕ) (P : ℕ) (sched : List (List ℕ)) : List Event :=
  batchEvents ((chunksOf P pending).zip sched) 0 pending.length

/-- Number of issue events in a trace. -/
def issueCount (trace : List Event) : ℕ :=
  trace.countP (fun e => match e with | Event.issue _ => true | _ => false)

/-- Number of settle events in a trace. -/
def settleCount (trace : List Event) : ℕ :=
  trace.countP (fun e => match e with | Event.settle _ => true | _ => false)

/-- Number of requests in flight after a trace prefix: issues minus
settles. -/
def inFlight (trace : List Event) : ℕ :=
  issueCount trace - settleCount trace

/-- The `(completed, total)` argument pairs of the progress events of a
trace, in order. -/
def progressPairs (trace : List Event) : List (ℕ × ℕ) :=
  trace.filterMap (fun e => match e with
    | Event.progress c t => some (c, t)
    | _ => none)

/-- Semantics of JavaScript `Math.round(num / den)` for non-negative
arguments, carried out in exact arithmetic: the nearest integer, halves
rounding up. -/
def jsRound (num den : ℕ) : ℕ :=
  (2 * num + den) / (2 * den)

/-- The percentage values handed to the caller's `onProgress` during one
run, as computed by the wrapper callback of `uploadLargeFile`
(lines 119-123): `existing = status.completed_chunks.length`,
`overall = (existing + completed) / total_chunks`,
`onProgress(Math.round(overall * 100))`.  The arithmetic is modelled
exactly rather than in floating point. -/
def reportedPercents (existing total_chunks : ℕ) (trace : List Event) : List ℕ :=
  (progressPairs trace).map (fun p => jsRound ((existing + p.1) * 100) total_chunks)

theorem totalChunks_eq_pred_div_add_one (m cs : ℕ) (hcs : 0 < cs) (hm : 0 < m) :
    totalChunks m cs = (m - 1) / cs + 1 := by
  unfold totalChunks
  have h1 : m + cs - 1 = (m - 1) + cs := by omega
  rw [h1, Nat.add_div_right _ hcs]

theorem totalChunks_zero (cs : ℕ) (hcs : 0 < cs) : totalChunks 0 cs = 0 := by
  unfold totalChunks
  simp [Nat.div_eq_of_lt, hcs]

theorem totalChunks_of_le (m cs : ℕ) (hcs : 0 < cs) (hm : 0 < m) (h : m ≤ cs) :
    totalChunks m cs = 1 := by
  rw [totalChunks_eq_pred_div_add_one m cs hcs hm,
    Nat.div_eq_of_lt (by omega)]

theorem totalChunks_of_gt (m cs : ℕ) (hcs : 0 < cs) (h : cs < m) :
    totalChunks m cs = totalChunks (m - cs) cs + 1 := by
  rw [totalChunks_eq_pred_div_add_one m cs hcs (by omega),
    totalChunks_eq_pred_div_add_one (m - cs) cs hcs (by omega)]
  have h1 : m - 1 = (m - cs - 1) + cs := by omega
  rw [h1, Nat.add_div_right _ hcs]

theorem totalChunks_pos (m cs : ℕ) (hcs : 0 < cs) (hm : 0 < m) :
    0 < totalChunks m cs := by
  rw [totalChunks_eq_pred_div_add_one m cs hcs hm]
  exact Nat.succ_pos _

/-- Lower bound: all chunks but the last start strictly inside the file. -/
theorem mul_pred_totalChunks_lt (m cs : ℕ) (hcs : 0 < cs) (hm : 0 < m) :
    cs * (totalChunks m cs - 1) < m := by
  rw [totalChunks_eq_pred_div_add_one m cs hcs hm]
  simp only [Nat.add_sub_cancel]
  have := Nat.mul_div_le (m - 1) cs
  omega

/-- Upper bound: the file ends inside the last chunk. -/
theorem le_mul_totalChunks (m cs : ℕ) (hcs : 0 < cs) :
    m ≤ cs * totalChunks m cs := by
  rcases Nat.eq_zero_or_pos m with rfl | hm
  · exact Nat.zero_le _
  rw [totalChunks_eq_pred_div_add_one m cs hcs hm, Nat.mul_succ]
  have h1 := Nat.div_add_mod (m - 1) cs
  have h2 := Nat.mod_lt (m - 1) hcs
  omega

theorem chunkBody_zero (file : Bytes) (cs : ℕ) :
    chunkBody file cs 0 = file.take cs := by
  unfold chunkBody fileSlice
  simp only [Nat.zero_mul, List.drop_zero, Nat.zero_add, Nat.sub_zero]
  rcases Nat.le_total cs file.length with h | h
  · rw [Nat.min_eq_left h]
  · rw [Nat.min_eq_right h, List.take_of_length_le h,
      List.take_of_length_le (Nat.le_refl _)]

theorem chunkBody_succ (file : Bytes) (cs i : ℕ) (h : cs ≤ file.length) :
    chunkBody file cs (i + 1) = chunkBody (file.drop cs) cs i := by
  unfold chunkBody fileSlice
  rw [List.drop_drop, List.length_drop]
  have h1 : cs + i * cs = (i + 1) * cs := by ring
  rw [h1]
  congr 1
  omega

/-- Length of the chunk body for index `i`. -/
theorem chunkBody_length (file : Bytes) (cs i : ℕ) :
    (chunkBody file cs i).length =
      min (i * cs + cs) file.length - i * cs := by
  unfold chunkBody fileSlice
  rw [List.length_take, List.length_drop]
  omega

/-- Concatenating the chunk bodies for indices `0 .. totalChunks - 1`
recovers the file; proved by strong induction on the file length,
peeling one chunk of `cs` bytes off the front at a time. -/
theorem flatten_chunkBodies (cs : ℕ) (hcs : 0 < cs) :
    ∀ file : Bytes,
      ((List.range (totalChunks file.length cs)).map (chunkBody file cs)).flatten
        = file := by
  suffices h : ∀ (n : ℕ) (file : Bytes), file.length = n →
      ((List.range (totalChunks file.length cs)).map (chunkBody file cs)).flatten
        = file by
    intro file; exact h file.length file rfl
  intro n
  induction n using Nat.strong_induction_on with
  | _ n ih =>
  intro file hn
  subst hn
  rcases Nat.eq_zero_or_pos file.length with h0 | hpos
  · rw [h0, totalChunks_zero cs hcs]
    simp [List.eq_nil_of_length_eq_zero h0]
  rcases Nat.lt_or_ge cs file.length with hlt | hle
  case inr =>
    rw [totalChunks_of_le _ _ hcs hpos hle,
      (by decide : List.range 1 = [0]), List.map_cons,
      List.map_nil, List.flatten_cons, List.flatten_nil, List.append_nil,
      chunkBody_zero, List.take_of_length_le hle]
  case inl =>
    have hgt : cs ≤ file.length := Nat.le_of_lt hlt
    rw [totalChunks_of_gt _ _ hcs hlt, List.range_succ_eq_map,
      List.map_cons, List.map_map, List.flatten_cons, chunkBody_zero]
    have hmap : (List.range (totalChunks (file.length - cs) cs)).map
        (chunkBody file cs ∘ Nat.succ)
        = (List.range (totalChunks (file.length - cs) cs)).map
            (chunkBody (file.drop cs) cs) := by
      apply List.map_congr_left
      intro a _
      exact chunkBody_succ file cs a hgt
    have hlen : (file.drop cs).length = file.length - cs := List.length_drop cs file
    rw [hmap, ← hlen]
    rw [ih (file.drop cs).length (by rw [hlen]; omega) (file.drop cs) rfl]
    exact List.take_append_drop cs file

/-- C1: for every file and every server-chosen `chunk_size > 0`, with
`total_chunks = ceil(file.size / chunk_size)`, concatenating in index
order the byte ranges that `uploadChunk` sends for indices
`0 .. total_chunks - 1` yields exactly the original file, byte for byte. -/
theorem uploadChunk_roundtrip (file : Bytes) (cs : ℕ) (hcs : 0 < cs) :
    ((List.range (totalChunks file.length cs)).map (chunkBody file cs)).flatten
      = file :=
  flatten_chunkBodies cs hcs file

theorem uploadChunk_roundtrip_witness :
    0 < 2 ∧
      ((List.range (totalChunks ([10, 20, 30, 40, 50] : Bytes).length 2)).map
        (chunkBody [10, 20, 30, 40, 50] 2)).flatten = [10, 20, 30, 40, 50] :=
  ⟨by decide, uploadChunk_roundtrip [10, 20, 30, 40, 50] 2 (by decide)⟩

/-- C2: for every file, every `chunk_size > 0` with
`total_chunks = ceil(size / chunk_size)`, and every index
`i < total_chunks`, the body sent by `uploadChunk` has length exactly
`chunk_size` when `i < total_chunks - 1`, and length
`size - chunk_size * (total_chunks - 1)` when `i = total_chunks - 1`. -/
theorem uploadChunk_lengths (file : Bytes) (cs i : ℕ) (hcs : 0 < cs)
    (hi : i < totalChunks file.length cs) :
    (i < totalChunks file.length cs - 1 → (chunkBody file cs i).length = cs)
    ∧ (i = totalChunks file.length cs - 1 →
        (chunkBody file cs i).length
          = file.length - cs * (totalChunks file.length cs - 1)) := by
  have hm : 0 < file.length := by
    rcases Nat.eq_zero_or_pos file.length with h0 | h
    · rw [h0, totalChunks_zero cs hcs] at hi; omega
    · exact h
  have hlow := mul_pred_totalChunks_lt file.length cs hcs hm
  have hup := le_mul_totalChunks file.length cs hcs
  have hN : 0 < totalChunks file.length cs := by omega
  constructor
  · intro hlt
    rw [chunkBody_length]
    have h1 : i * cs + cs ≤ cs * (totalChunks file.length cs - 1) := by
      calc i * cs + cs = (i + 1) * cs := by ring
        _ ≤ (totalChunks file.length cs - 1) * cs :=
            Nat.mul_le_mul_right cs (by omega)
        _ = cs * (totalChunks file.length cs - 1) := Nat.mul_comm _ _
    omega
  · intro heq
    rw [chunkBody_length, heq]
    have hcomm : (totalChunks file.length cs - 1) * cs
        = cs * (totalChunks file.length cs - 1) := Nat.mul_comm _ _
    have hsucc : cs * totalChunks file.length cs
        = cs * (totalChunks file.length cs - 1) + cs := by
      conv_lhs => rw [show totalChunks file.length cs
        = (totalChunks file.length cs - 1) + 1 by omega]
      rw [Nat.mul_succ]
    omega

theorem uploadChunk_lengths_witness :
    0 < 2 ∧ 1 < totalChunks ([10, 20, 30, 40, 50] : Bytes).length 2 ∧
      (1 < totalChunks ([10, 20, 30, 40, 50] : Bytes).length 2 - 1 →
        (chunkBody [10, 20, 30, 40, 50] 2 1).length = 2) ∧
      (1 = totalChunks ([10, 20, 30, 40, 50] : Bytes).length 2 - 1 →
        (chunkBody [10, 20, 30, 40, 50] 2 1).length
          = ([10, 20, 30, 40, 50] : Bytes).length
              - 2 * (totalChunks ([10, 20, 30, 40, 50] : Bytes).length 2 - 1)) :=
  ⟨by decide, by decide,
    (uploadChunk_lengths [10, 20, 30, 40, 50] 2 1 (by decide) (by decide)).1,
    (uploadChunk_lengths [10, 20, 30, 40, 50] 2 1 (by decide) (by decide)).2⟩

theorem mem_pendingOf (N : ℕ) (S : List ℕ) (i : ℕ) :
    i ∈ pendingOf N S ↔ i < N ∧ i ∉ S := by
  simp [pendingOf, List.mem_filter, List.mem_range]

theorem pendingOf_sorted (N : ℕ) (S : List ℕ) :
    (pendingOf N S).Sorted (· < ·) :=
  List.Pairwise.filter _ (List.sorted_lt_range N)

theorem pendingOf_nodup (N : ℕ) (S : List ℕ) : (pendingOf N S).Nodup :=
  List.Nodup.filter _ (List.nodup_range N)

theorem chunksOfFuel_fuel_irrel (P : ℕ) :
    ∀ (fuel1 fuel2 : ℕ) (l : List ℕ), l.length ≤ fuel1 → l.length ≤ fuel2 →
      chunksOfFuel P fuel1 l = chunksOfFuel P fuel2 l := by
  intro fuel1
  induction fuel1 with
  | zero =>
    intro fuel2 l h1 _
    have hl : l = [] := List.eq_nil_of_length_eq_zero (by omega)
    subst hl
    cases fuel2 <;> rfl
  | succ f1 ih =>
    intro fuel2 l h1 h2
    cases l with
    | nil => cases fuel2 <;> rfl
    | cons x xs =>
      cases fuel2 with
      | zero => simp at h2
      | succ f2 =>
        show chunksOfFuel P (f1 + 1) (x :: xs) = chunksOfFuel P (f2 + 1) (x :: xs)
        by_cases hP : P = 0
        · simp [chunksOfFuel, hP]
        · simp only [chunksOfFuel, hP, if_false]
          rw [ih f2 ((x :: xs).drop P)
            (by rw [List.length_drop]; simp at h1 ⊢; omega)
            (by rw [List.length_drop]; simp at h2 ⊢; omega)]

theorem chunksOf_nil (P : ℕ) : chunksOf P [] = [] := rfl

theorem chunksOf_ne_nil (P : ℕ) (l : List ℕ) (hP : P ≠ 0) (hl : l ≠ []) :
    chunksOf P l = l.take P :: chunksOf P (l.drop P) := by
  cases l with
  | nil => exact absurd rfl hl
  | cons x xs =>
    show chunksOfFuel P (x :: xs).length (x :: xs) = _
    rw [List.length_cons, chunksOfFuel]
    simp only [hP, if_false]
    rw [chunksOfFuel_fuel_irrel P xs.length ((x :: xs).drop P).length
      ((x :: xs).drop P) (by rw [List.length_drop]; simp; omega)
      (Nat.le_refl _)]
    rfl

theorem flatten_chunksOf (P : ℕ) (hP : 0 < P) (l : List ℕ) :
    (chunksOf P l).flatten = l := by
  suffices h : ∀ (n : ℕ) (l : List ℕ), l.length = n →
      (chunksOf P l).flatten = l from h l.length l rfl
  intro n
  induction n using Nat.strong_induction_on with
  | _ n ih =>
  intro l hn
  subst hn
  by_cases hl : l = []
  · subst hl; simp [chunksOf_nil]
  · rw [chunksOf_ne_nil P l (by omega) hl, List.flatten_cons,
      ih (l.drop P).length
        (by rw [List.length_drop]
            have := List.length_pos.mpr hl
            omega)
        (l.drop P) rfl,
      List.take_append_drop]

theorem chunksOf_length (P : ℕ) (hP : 0 < P) (l : List ℕ) :
    (chunksOf P l).length = totalChunks l.length P := by
  suffices h : ∀ (n : ℕ) (l : List ℕ), l.length = n →
      (chunksOf P l).length = totalChunks l.length P from h l.length l rfl
  intro n
  induction n using Nat.strong_induction_on with
  | _ n ih =>
  intro l hn
  subst hn
  by_cases hl : l = []
  · subst hl; simp [chunksOf_nil, totalChunks_zero P hP]
  have hpos : 0 < l.length := List.length_pos.mpr hl
  rw [chunksOf_ne_nil P l (by omega) hl, List.length_cons,
    ih (l.drop P).length
      (by rw [List.length_drop]; omega) (l.drop P) rfl,
    List.length_drop]
  rcases Nat.le_total l.length P with hle | hgt
  · rw [totalChunks_of_le _ _ hP hpos hle,
      Nat.sub_eq_zero_of_le hle, totalChunks_zero P hP]
  · rcases Nat.eq_or_lt_of_le hgt with heq | hlt
    · rw [← heq, Nat.sub_self, totalChunks_zero P hP,
        totalChunks_of_le P P hP (by omega) (Nat.le_refl P)]
    · rw [totalChunks_of_gt _ _ hP hlt]

theorem mem_chunksOf (P : ℕ) (hP : 0 < P) (l : List ℕ) :
    ∀ b ∈ chunksOf P l, b.length ≤ P ∧ b ≠ [] := by
  suffices h : ∀ (n : ℕ) (l : List ℕ), l.length = n →
      ∀ b ∈ chunksOf P l, b.length ≤ P ∧ b ≠ [] from h l.length l rfl
  intro n
  induction n using Nat.strong_induction_on with
  | _ n ih =>
  intro l hn
  subst hn
  by_cases hl : l = []
  · subst hl; simp [chunksOf_nil]
  have hpos : 0 < l.length := List.length_pos.mpr hl
  rw [chunksOf_ne_nil P l (by omega) hl]
  intro b hb
  rcases List.mem_cons.mp hb with rfl | hb
  · constructor
    · rw [List.length_take]; omega
    · intro h
      have hcg := congrArg List.length h
      rw [List.length_take] at hcg
      simp only [List.length_nil] at hcg
      exact hl (List.eq_nil_of_length_eq_zero (by omega))
  · exact ih (l.drop P).length (by rw [List.length_drop]; omega)
      (l.drop P) rfl b hb

theorem chunksOf_dropLast_length (P : ℕ) (hP : 0 < P) (l : List ℕ) :
    ∀ b ∈ (chunksOf P l).dropLast, b.length = P := by
  suffices h : ∀ (n : ℕ) (l : List ℕ), l.length = n →
      ∀ b ∈ (chunksOf P l).dropLast, b.length = P from h l.length l rfl
  intro n
  induction n using Nat.strong_induction_on with
  | _ n ih =>
  intro l hn
  subst hn
  by_cases hl : l = []
  · subst hl; simp [chunksOf_nil]
  have hpos : 0 < l.length := List.length_pos.mpr hl
  rw [chunksOf_ne_nil P l (by omega) hl]
  cases hrest : chunksOf P (l.drop P) with
  | nil => simp
  | cons t rest =>
    have hdrop : l.drop P ≠ [] := by
      intro h
      rw [h, chunksOf_nil] at hrest
      exact List.cons_ne_nil _ _ hrest.symm
    have hlen : P < l.length := by
      have := List.length_pos.mpr hdrop
      rw [List.length_drop] at this
      omega
    rw [← hrest, List.dropLast_cons_of_ne_nil (by rw [hrest]; exact List.cons_ne_nil _ _)]
    intro b hb
    rcases List.mem_cons.mp hb with rfl | hb
    · rw [List.length_take]; omega
    · exact ih (l.drop P).length (by rw [List.length_drop]; omega)
        (l.drop P) rfl b hb

theorem chunksOf_getD (P : ℕ) (hP : 0 < P) (l : List ℕ) (j : ℕ) :
    (chunksOf P l).getD j [] = (l.drop (j * P)).take P := by
  suffices h : ∀ (n : ℕ) (l : List ℕ), l.length = n → ∀ j : ℕ,
      (chunksOf P l).getD j [] = (l.drop (j * P)).take P from h l.length l rfl j
  intro n
  induction n using Nat.strong_induction_on with
  | _ n ih =>
  intro l hn
  subst hn
  intro j
  by_cases hl : l = []
  · subst hl; simp [chunksOf_nil]
  have hpos : 0 < l.length := List.length_pos.mpr hl
  rw [chunksOf_ne_nil P l (by omega) hl]
  cases j with
  | zero => simp
  | succ j =>
    simp only [List.getD_cons_succ]
    rw [ih (l.drop P).length (by rw [List.length_drop]; omega) (l.drop P) rfl j,
      List.drop_drop]
    congr 2
    ring

theorem runBatches_snd_eq_none (chunkOk : ℕ → Bool) (L : List (List ℕ)) :
    (runBatches chunkOk L).2 = none ↔ ∀ b ∈ L, ∀ i ∈ b, chunkOk i = true := by
  induction L with
  | nil => simp [runBatches]
  | cons b bs ih =>
    rw [runBatches]
    cases hf : b.find? (fun i => !(chunkOk i)) with
    | some i =>
      have hmem := List.mem_of_find?_eq_some hf
      have hfail := List.find?_some hf
      simp only [Bool.not_eq_eq_eq_not, Bool.not_true] at hfail
      simp only []
      constructor
      · intro h; exact absurd h (by simp)
      · intro h
        have := h b (List.mem_cons_self b bs) i hmem
        rw [this] at hfail
        exact absurd hfail (by simp)
    | none =>
      have hb : ∀ i ∈ b, chunkOk i = true := by
        intro i hi
        have := List.find?_eq_none.mp hf i hi
        simpa using this
      simp only [List.mem_cons]
      constructor
      · intro h b2 hb2
        rcases hb2 with rfl | hb2
        · exact hb
        · exact ih.mp h b2 hb2
      · intro h
        exact ih.mpr (fun b2 hb2 => h b2 (Or.inr hb2))

theorem runBatches_fst_subset (chunkOk : ℕ → Bool) (L : List (List ℕ)) :
    ∀ x ∈ (runBatches chunkOk L).1, ∃ b ∈ L, x ∈ b := by
  induction L with
  | nil => simp [runBatches]
  | cons b bs ih =>
    rw [runBatches]
    cases hf : b.find? (fun i => !(chunkOk i)) with
    | some i =>
      intro x hx
      exact ⟨b, List.mem_cons_self b bs, hx⟩
    | none =>
      intro x hx
      rcases List.mem_append.mp hx with hx | hx
      · exact ⟨b, List.mem_cons_self b bs, hx⟩
      · obtain ⟨b2, hb2, hxb2⟩ := ih x hx
        exact ⟨b2, List.mem_cons_of_mem b hb2, hxb2⟩

theorem runBatches_all_ok (chunkOk : ℕ → Bool) (L : List (List ℕ))
    (h : ∀ b ∈ L, ∀ i ∈ b, chunkOk i = true) :
    runBatches chunkOk L = (L.flatten, none) := by
  induction L with
  | nil => simp [runBatches]
  | cons b bs ih =>
    rw [runBatches]
    have hf : b.find? (fun i => !(chunkOk i)) = none := by
      rw [List.find?_eq_none]
      intro i hi
      simp [h b (List.mem_cons_self b bs) i hi]
    rw [hf]
    simp only [ih (fun b2 hb2 => h b2 (List.mem_cons_of_mem b hb2)),
      List.flatten_cons]

theorem uploadLargeFileRun_eq_some (N : ℕ) (srv : Server) (k : ℕ)
    (hr : (runBatches srv.chunkOk
        (chunksOf PARALLEL_CHUNKS (pendingOf N srv.statusChunks))).2 = some k) :
    uploadLargeFileRun N srv
      = (Call.initCall :: Call.statusCall ::
          (runBatches srv.chunkOk
            (chunksOf PARALLEL_CHUNKS (pendingOf N srv.statusChunks))).1.map
              Call.chunkCall,
        Except.error ("Failed to upload chunk " ++ toString k)) := by
  simp only [uploadLargeFileRun, hr]

theorem uploadLargeFileRun_eq_none (N : ℕ) (srv : Server)
    (hr : (runBatches srv.chunkOk
        (chunksOf PARALLEL_CHUNKS (pendingOf N srv.statusChunks))).2 = none) :
    uploadLargeFileRun N srv
      = (Call.initCall :: Call.statusCall ::
          ((runBatches srv.chunkOk
            (chunksOf PARALLEL_CHUNKS (pendingOf N srv.statusChunks))).1.map
              Call.chunkCall ++ [Call.completeCall]),
        if srv.completeOk then Except.ok ()
        else Except.error "Failed to complete upload") := by
  simp only [uploadLargeFileRun, hr]

theorem chunkCall_mem_run (N : ℕ) (srv : Server) (j : ℕ)
    (hj : Call.chunkCall j ∈ (uploadLargeFileRun N srv).1) :
    j ∈ pendingOf N srv.statusChunks := by
  have hj2 : j ∈ (runBatches srv.chunkOk
      (chunksOf PARALLEL_CHUNKS (pendingOf N srv.statusChunks))).1 := by
    cases hr : (runBatches srv.chunkOk
        (chunksOf PARALLEL_CHUNKS (pendingOf N srv.statusChunks))).2 with
    | some k =>
      rw [uploadLargeFileRun_eq_some N srv k hr] at hj
      simpa using hj
    | none =>
      rw [uploadLargeFileRun_eq_none N srv hr] at hj
      simpa using hj
  obtain ⟨b, hb, hjb⟩ := runBatches_fst_subset srv.chunkOk _ j hj2
  have hfl : j ∈ (chunksOf PARALLEL_CHUNKS
      (pendingOf N srv.statusChunks)).flatten :=
    List.mem_flatten.mpr ⟨b, hb, hjb⟩
  rwa [flatten_chunksOf PARALLEL_CHUNKS (by decide)] at hfl

/-- C3: for every `total_chunks` and every status response,
`uploadLargeFile` computes the list of pending indices as exactly the
indices in `[0, total_chunks)` that the server did not report, in
increasing order, and (when deliveries succeed) issues chunk calls for
exactly those indices, in that order, before its single completion
call. -/
theorem resume_pending_only (N : ℕ) (srv : Server) (i : ℕ)
    (hok : ∀ j ∈ pendingOf N srv.statusChunks, srv.chunkOk j = true) :
    (i ∈ pendingOf N srv.statusChunks ↔ i < N ∧ i ∉ srv.statusChunks)
    ∧ (pendingOf N srv.statusChunks).Sorted (· < ·)
    ∧ (uploadLargeFileRun N srv).1
        = Call.initCall :: Call.statusCall ::
            ((pendingOf N srv.statusChunks).map Call.chunkCall
              ++ [Call.completeCall]) := by
  refine ⟨mem_pendingOf N srv.statusChunks i, pendingOf_sorted _ _, ?_⟩
  have hall : ∀ b ∈ chunksOf PARALLEL_CHUNKS (pendingOf N srv.statusChunks),
      ∀ j ∈ b, srv.chunkOk j = true := by
    intro b hb j hj
    apply hok
    have hfl : j ∈ (chunksOf PARALLEL_CHUNKS
        (pendingOf N srv.statusChunks)).flatten :=
      List.mem_flatten.mpr ⟨b, hb, hj⟩
    rwa [flatten_chunksOf PARALLEL_CHUNKS (by decide)] at hfl
  have hrun := runBatches_all_ok srv.chunkOk
    (chunksOf PARALLEL_CHUNKS (pendingOf N srv.statusChunks)) hall
  rw [uploadLargeFileRun_eq_none N srv (by rw [hrun]), hrun,
    flatten_chunksOf PARALLEL_CHUNKS (by decide)]

theorem resume_pending_only_witness :
    pendingOf 5 [0, 2, 4] = [1, 3]
    ∧ (uploadLargeFileRun 5 ⟨[0, 2, 4], fun _ => true, true⟩).1
        = [Call.initCall, Call.statusCall, Call.chunkCall 1, Call.chunkCall 3,
            Call.completeCall] := by
  have h := (resume_pending_only 5 ⟨[0, 2, 4], fun _ => true, true⟩ 1
    (by decide)).2.2
  exact ⟨by decide, by rw [h]; decide⟩

/-- C4: if some pending chunk delivery returns non-ok, the run of
`uploadLargeFile` ends in a thrown error and the completion endpoint is
never called in that run; moreover any run (in particular a re-invocation
after the failure) issues chunk deliveries only for indices in the
pending set derived from that run's own status response, i.e. from
server-reported received state. -/
theorem chunk_failure_propagates (N : ℕ) (srv : Server)
    (hfail : ∃ i ∈ pendingOf N srv.statusChunks, srv.chunkOk i = false) :
    (∃ msg, (uploadLargeFileRun N srv).2 = Except.error msg)
    ∧ Call.completeCall ∉ (uploadLargeFileRun N srv).1
    ∧ ∀ (srv2 : Server) (j : ℕ),
        Call.chunkCall j ∈ (uploadLargeFileRun N srv2).1
          → j ∈ pendingOf N srv2.statusChunks := by
  obtain ⟨i, hi, hbad⟩ := hfail
  have hnone : (runBatches srv.chunkOk
      (chunksOf PARALLEL_CHUNKS (pendingOf N srv.statusChunks))).2 ≠ none := by
    intro h0
    have hall := (runBatches_snd_eq_none srv.chunkOk _).mp h0
    have hfl : i ∈ (chunksOf PARALLEL_CHUNKS
        (pendingOf N srv.statusChunks)).flatten := by
      rw [flatten_chunksOf PARALLEL_CHUNKS (by decide)]
      exact hi
    obtain ⟨b, hb, hib⟩ := List.mem_flatten.mp hfl
    rw [hall b hb i hib] at hbad
    exact Bool.noConfusion hbad
  cases hr : (runBatches srv.chunkOk
      (chunksOf PARALLEL_CHUNKS (pendingOf N srv.statusChunks))).2 with
  | none => exact absurd hr hnone
  | some k =>
    rw [uploadLargeFileRun_eq_some N srv k hr]
    refine ⟨⟨"Failed to upload chunk " ++ toString k, rfl⟩, ?_, ?_⟩
    · simp
    · intro srv2 j hj
      exact chunkCall_mem_run N srv2 j hj

theorem chunk_failure_propagates_witness :
    Call.completeCall
      ∉ (uploadLargeFileRun 2 ⟨[], fun i => decide (i = 1), true⟩).1 :=
  (chunk_failure_propagates 2 ⟨[], fun i => decide (i = 1), true⟩
    (by decide)).2.1

/-- C9: within one run, each chunk index is delivered at most once: the
pending list is strictly increasing (hence duplicate-free), and the
batches handed to `uploadChunksParallel` are pairwise-disjoint
consecutive slices of the pending list whose concatenation is exactly the
pending list. -/
theorem chunks_delivered_at_most_once (N : ℕ) (S : List ℕ) :
    (pendingOf N S).Sorted (· < ·)
    ∧ (pendingOf N S).Nodup
    ∧ (chunksOf PARALLEL_CHUNKS (pendingOf N S)).flatten = pendingOf N S
    ∧ List.Pairwise List.Disjoint (chunksOf PARALLEL_CHUNKS (pendingOf N S))
    ∧ ∀ j : ℕ, (chunksOf PARALLEL_CHUNKS (pendingOf N S)).getD j []
        = ((pendingOf N S).drop (j * PARALLEL_CHUNKS)).take PARALLEL_CHUNKS := by
  have hfl := flatten_chunksOf PARALLEL_CHUNKS (by decide) (pendingOf N S)
  refine ⟨pendingOf_sorted N S, pendingOf_nodup N S, hfl, ?_, ?_⟩
  · have hnd : (chunksOf PARALLEL_CHUNKS (pendingOf N S)).flatten.Nodup := by
      rw [hfl]; exact pendingOf_nodup N S
    exact (List.nodup_flatten.mp hnd).2
  · intro j
    exact chunksOf_getD PARALLEL_CHUNKS (by decide) (pendingOf N S) j

/-- C7 as stated is false: on a non-ok completion response (the
`Incomplete` case) the client does not re-run the transfer step and does
not retry completion; at `total_chunks = 2`, an empty received set, all
chunk deliveries ok and a failing completion call, the run reports the
failure `Failed to complete upload` to its caller, the completion
endpoint is called exactly once, and no call of any kind follows it. -/
theorem complete_failure_no_retry_cex :
    (uploadLargeFileRun 2 ⟨[], fun _ => true, false⟩).2
        = Except.error "Failed to complete upload"
    ∧ (uploadLargeFileRun 2 ⟨[], fun _ => true, false⟩).1.count
        Call.completeCall = 1
    ∧ (uploadLargeFileRun 2 ⟨[], fun _ => true, false⟩).1.getLast?
        = some Call.completeCall := by
  exact ⟨rfl, rfl, rfl⟩

/-- C7 amended: when the completion call responds non-ok (which is how an
`Incomplete` response arrives), `uploadLargeFile` throws
`Failed to complete upload` to its caller; the completion endpoint is
called exactly once and is the last call of the run — no transfer re-run
and no completion retry happens inside the run.  (Recovery happens only
if the caller invokes `uploadLargeFile` again, which re-derives the
pending set from the server's status response.) -/
theorem complete_failure_throws (N : ℕ) (srv : Server)
    (hok : ∀ j ∈ pendingOf N srv.statusChunks, srv.chunkOk j = true)
    (hc : srv.completeOk = false) :
    (uploadLargeFileRun N srv).2 = Except.error "Failed to complete upload"
    ∧ (uploadLargeFileRun N srv).1.count Call.completeCall = 1
    ∧ (uploadLargeFileRun N srv).1.getLast? = some Call.completeCall := by
  have hall : ∀ b ∈ chunksOf PARALLEL_CHUNKS (pendingOf N srv.statusChunks),
      ∀ j ∈ b, srv.chunkOk j = true := by
    intro b hb j hj
    apply hok
    have hfl : j ∈ (chunksOf PARALLEL_CHUNKS
        (pendingOf N srv.statusChunks)).flatten :=
      List.mem_flatten.mpr ⟨b, hb, hj⟩
    rwa [flatten_chunksOf PARALLEL_CHUNKS (by decide)] at hfl
  have hrun := runBatches_all_ok srv.chunkOk
    (chunksOf PARALLEL_CHUNKS (pendingOf N srv.statusChunks)) hall
  rw [uploadLargeFileRun_eq_none N srv (by rw [hrun]), hc]
  refine ⟨rfl, ?_, ?_⟩
  · have h0 : ((runBatches srv.chunkOk
        (chunksOf PARALLEL_CHUNKS (pendingOf N srv.statusChunks))).1.map
          Call.chunkCall).count Call.completeCall = 0 := by
      rw [List.count_eq_zero]
      simp
    simp [List.count_cons, List.count_append, h0]
  · have hsplit : Call.initCall :: Call.statusCall ::
        ((runBatches srv.chunkOk
          (chunksOf PARALLEL_CHUNKS (pendingOf N srv.statusChunks))).1.map
            Call.chunkCall ++ [Call.completeCall])
        = (Call.initCall :: Call.statusCall ::
            (runBatches srv.chunkOk
              (chunksOf PARALLEL_CHUNKS (pendingOf N srv.statusChunks))).1.map
                Call.chunkCall) ++ [Call.completeCall] := rfl
    rw [hsplit, List.getLast?_concat]

theorem prefix_append_cases {α : Type} {A B p : List α} (h : p <+: A ++ B) :
    p <+: A ∨ ∃ q, p = A ++ q ∧ q <+: B := by
  induction A generalizing p with
  | nil => exact Or.inr ⟨p, rfl, h⟩
  | cons a A ih =>
    cases p with
    | nil => exact Or.inl List.nil_prefix
    | cons x p =>
      obtain ⟨t, ht⟩ := h
      simp only [List.cons_append, List.cons.injEq] at ht
      obtain ⟨rfl, ht⟩ := ht
      rcases ih ⟨t, ht⟩ with h1 | ⟨q, rfl, hq⟩
      · exact Or.inl (List.cons_prefix_cons.mpr ⟨rfl, h1⟩)
      · exact Or.inr ⟨q, rfl, hq⟩

theorem issueCount_settleEvents (l : List ℕ) (c T : ℕ) :
    issueCount (settleEvents l c T) = 0 := by
  induction l generalizing c with
  | nil => rfl
  | cons i rest ih => simp [settleEvents, issueCount, List.countP_cons] at ih ⊢; exact ih _

theorem settleCount_settleEvents (l : List ℕ) (c T : ℕ) :
    settleCount (settleEvents l c T) = l.length := by
  induction l generalizing c with
  | nil => rfl
  | cons i rest ih =>
    simp only [settleEvents, settleCount, List.countP_cons] at ih ⊢
    rw [ih (c + 1)]
    simp [List.length_cons]

theorem issueCount_map_issue (b : List ℕ) :
    issueCount (b.map Event.issue) = b.length := by
  unfold issueCount
  rw [List.countP_map]
  induction b with
  | nil => rfl
  | cons x xs ih => simpa [List.countP_cons] using ih

theorem settleCount_map_issue (b : List ℕ) :
    settleCount (b.map Event.issue) = 0 := by
  unfold settleCount
  rw [List.countP_map]
  induction b with
  | nil => rfl
  | cons x xs ih => simpa [List.countP_cons] using ih

theorem issueCount_append (a b : List Event) :
    issueCount (a ++ b) = issueCount a + issueCount b :=
  List.countP_append _ a b

theorem settleCount_append (a b : List Event) :
    settleCount (a ++ b) = settleCount a + settleCount b :=
  List.countP_append _ a b

theorem issue_not_mem_settleEvents (x : ℕ) (l : List ℕ) (c T : ℕ) :
    Event.issue x ∉ settleEvents l c T := by
  induction l generalizing c with
  | nil => simp [settleEvents]
  | cons i rest ih =>
    simp only [settleEvents, List.mem_cons]
    intro h
    rcases h with h | h | h
    · exact Event.noConfusion h
    · exact Event.noConfusion h
    · exact ih (c + 1) h

theorem settle_mem_settleEvents (x : ℕ) (l : List ℕ) :
    ∀ c T : ℕ, x ∈ l → Event.settle x ∈ settleEvents l c T := by
  induction l with
  | nil => intro c T hx; simp at hx
  | cons i rest ih =>
    intro c T hx
    simp only [settleEvents, List.mem_cons]
    rcases List.mem_cons.mp hx with rfl | hx
    · exact Or.inl rfl
    · exact Or.inr (Or.inr (ih (c + 1) T hx))

/-- In-flight bound for the batch loop: for every prefix of the trace the
number of issued requests exceeds the number of settled ones by at most
`P`, provided every batch has at most `P` requests and its settle order
covers exactly its requests. -/
theorem issueCount_le_batchEvents (P : ℕ) (L : List (List ℕ × List ℕ))
    (hlen : ∀ p ∈ L, p.1.length ≤ P ∧ p.2.length = p.1.length) :
    ∀ (c T : ℕ) (pfx : List Event), pfx <+: batchEvents L c T →
      issueCount pfx ≤ settleCount pfx + P := by
  induction L with
  | nil =>
    intro c T pfx h
    rw [List.prefix_nil.mp h]
    simp [issueCount, settleCount]
  | cons bo rest ih =>
    obtain ⟨b, ord⟩ := bo
    intro c T pfx hpfx
    obtain ⟨hbP0, hordb0⟩ := hlen (b, ord) (List.mem_cons_self _ _)
    have hbP : b.length ≤ P := hbP0
    have hordb : ord.length = b.length := hordb0
    rw [show batchEvents ((b, ord) :: rest) c T
        = b.map Event.issue ++ (settleEvents ord c T
            ++ batchEvents rest (c + ord.length) T) by
      simp [batchEvents, List.append_assoc]] at hpfx
    rcases prefix_append_cases hpfx with h1 | ⟨q, rfl, hq⟩
    · have := List.Sublist.countP_le
        (fun e => match e with | Event.issue _ => true | _ => false) h1.sublist
      have hle : issueCount pfx ≤ b.length := by
        unfold issueCount
        exact le_trans this (le_of_eq (issueCount_map_issue b))
      omega
    · rcases prefix_append_cases hq with h2 | ⟨q2, rfl, hq2⟩
      · have hiq : issueCount q = 0 := by
          have := List.Sublist.countP_le
            (fun e => match e with | Event.issue _ => true | _ => false) h2.sublist
          unfold issueCount
          have h0 := issueCount_settleEvents ord c T
          unfold issueCount at h0
          omega
        rw [issueCount_append, settleCount_append, issueCount_map_issue,
          settleCount_map_issue, hiq]
        omega
      · have hrec := ih (fun p hp => hlen p (List.mem_cons_of_mem _ hp))
          (c + ord.length) T q2 hq2
        rw [issueCount_append, settleCount_append, issueCount_map_issue,
          settleCount_map_issue, issueCount_append, settleCount_append,
          issueCount_settleEvents, settleCount_settleEvents]
        omega

/-- Batch ordering in the trace: if any request of a later batch has been
issued within a prefix of the trace, then every request of any earlier
batch has already settled within that prefix. -/
theorem batch_order (L : List (List ℕ × List ℕ)) :
    ∀ c T : ℕ, (∀ p ∈ L, p.2.Perm p.1) →
      List.Pairwise List.Disjoint (L.map Prod.fst) →
      ∀ pfx, pfx <+: batchEvents L c T →
        ∀ j k : ℕ, j < k →
          ∀ x ∈ (L.map Prod.fst).getD k [], Event.issue x ∈ pfx →
            ∀ y ∈ (L.map Prod.fst).getD j [], Event.settle y ∈ pfx := by
  induction L with
  | nil =>
    intro c T _ _ pfx _ j k _ x hx _ y hy
    rw [List.map_nil, List.getD_eq_default _ _ (by simp)] at hx
    simp at hx
  | cons bo rest ih =>
    obtain ⟨b, ord⟩ := bo
    intro c T hperm hdisj pfx hpfx j k hjk x hx hix y hy
    have hmapcons : ((b, ord) :: rest).map Prod.fst = b :: rest.map Prod.fst := rfl
    rw [hmapcons] at hx hy
    cases k with
    | zero => omega
    | succ k =>
    rw [List.getD_cons_succ] at hx
    have hxrest : ∃ b2 ∈ rest.map Prod.fst, x ∈ b2 := by
      rcases Nat.lt_or_ge k (rest.map Prod.fst).length with hk | hk
      · exact ⟨(rest.map Prod.fst).getD k [],
          by rw [List.getD_eq_getElem _ _ hk]; exact List.getElem_mem hk,
          hx⟩
      · rw [List.getD_eq_default _ _ hk] at hx
        simp at hx
    obtain ⟨b2, hb2, hxb2⟩ := hxrest
    have hxnotb : x ∉ b := by
      intro hxb
      rw [hmapcons] at hdisj
      exact (List.pairwise_cons.mp hdisj).1 b2 hb2 hxb hxb2
    rw [show batchEvents ((b, ord) :: rest) c T
        = b.map Event.issue ++ (settleEvents ord c T
            ++ batchEvents rest (c + ord.length) T) by
      simp [batchEvents, List.append_assoc]] at hpfx
    rcases prefix_append_cases hpfx with h1 | ⟨q, rfl, hq⟩
    · exfalso
      have := List.Sublist.mem hix h1.sublist
      simp only [List.mem_map] at this
      obtain ⟨a, ha, hax⟩ := this
      cases hax
      exact hxnotb ha
    · have hixq : Event.issue x ∈ q := by
        rcases List.mem_append.mp hix with hA | hB
        · exfalso
          simp only [List.mem_map] at hA
          obtain ⟨a, ha, hax⟩ := hA
          cases hax
          exact hxnotb ha
        · exact hB
      rcases prefix_append_cases hq with h2 | ⟨q2, rfl, hq2⟩
      · exfalso
        exact issue_not_mem_settleEvents x ord c T
          (List.Sublist.mem hixq h2.sublist)
      · cases j with
        | zero =>
          rw [List.getD_cons_zero] at hy
          have hyord : y ∈ ord :=
            ((hperm (b, ord) (List.mem_cons_self _ _)).mem_iff).mpr hy
          exact List.mem_append.mpr (Or.inr (List.mem_append.mpr
            (Or.inl (settle_mem_settleEvents y ord c T hyord))))
        | succ j =>
          rw [List.getD_cons_succ] at hy
          have hixq2 : Event.issue x ∈ q2 := by
            rcases List.mem_append.mp hixq with hC | hD
            · exact absurd (List.Sublist.mem hC (List.Sublist.refl _))
                (issue_not_mem_settleEvents x ord c T)
            · exact hD
          have hrec := ih (c + ord.length) T
            (fun p hp => hperm p (List.mem_cons_of_mem _ hp))
            (by rw [hmapcons] at hdisj; exact (List.pairwise_cons.mp hdisj).2)
            q2 hq2 j k (by omega) x hx hixq2 y hy
          exact List.mem_append.mpr (Or.inr (List.mem_append.mpr (Or.inr hrec)))

theorem progressPairs_append (a b : List Event) :
    progressPairs (a ++ b) = progressPairs a ++ progressPairs b :=
  List.filterMap_append a b _

theorem progressPairs_map_issue (b : List ℕ) :
    progressPairs (b.map Event.issue) = [] := by
  induction b with
  | nil => rfl
  | cons x xs ih => simpa [progressPairs, List.filterMap_cons] using ih

theorem progressPairs_settleEvents (l : List ℕ) :
    ∀ c T : ℕ, progressPairs (settleEvents l c T)
      = (List.range l.length).map (fun k => (c + k + 1, T)) := by
  induction l with
  | nil => intro c T; rfl
  | cons i rest ih =>
    intro c T
    show progressPairs (Event.settle i :: Event.progress (c + 1) T ::
      settleEvents rest (c + 1) T) = _
    simp only [progressPairs, List.filterMap_cons] at ih ⊢
    rw [ih (c + 1) T, List.length_cons, List.range_succ_eq_map,
      List.map_cons, List.map_map]
    congr 1
    apply List.map_congr_left
    intro a _
    show (c + 1 + a + 1, T) = (c + (a + 1) + 1, T)
    rw [show c + 1 + a + 1 = c + (a + 1) + 1 by omega]

theorem progressPairs_batchEvents (L : List (List ℕ × List ℕ)) :
    ∀ c T : ℕ, progressPairs (batchEvents L c T)
      = (List.range ((L.map (fun p => p.2.length)).sum)).map
          (fun k => (c + k + 1, T)) := by
  induction L with
  | nil => intro c T; rfl
  | cons bo rest ih =>
    obtain ⟨b, ord⟩ := bo
    intro c T
    show progressPairs (b.map Event.issue ++ settleEvents ord c T
      ++ batchEvents rest (c + ord.length) T) = _
    rw [progressPairs_append, progressPairs_append, progressPairs_map_issue,
      progressPairs_settleEvents, ih (c + ord.length) T, List.nil_append,
      show (((b, ord) :: rest).map (fun p => p.2.length)).sum
        = ord.length + (rest.map (fun p => p.2.length)).sum by
          simp [List.sum_cons],
      List.range_add, List.map_append, List.map_map]
    congr 1
    apply List.map_congr_left
    intro a _
    show (c + ord.length + a + 1, T) = (c + (ord.length + a) + 1, T)
    rw [show c + ord.length + a + 1 = c + (ord.length + a) + 1 by omega]

theorem sum_ord_lengths (B sched : List (List ℕ))
    (h : List.Forall₂ (fun b ord => ord.Perm b) B sched) :
    ((B.zip sched).map (fun p => p.2.length)).sum = (B.map List.length).sum := by
  induction h with
  | nil => rfl
  | cons hp hrest ih =>
    rw [List.zip_cons_cons, List.map_cons, List.sum_cons, List.map_cons,
      List.sum_cons, ih, hp.length_eq]

/-- The `(completed, total)` pairs passed to the progress callback over a
whole successful run are exactly `(1, T), (2, T), …, (T, T)` where `T` is
the number of pending chunks, regardless of the order in which requests
settle inside each batch. -/
theorem progressPairs_runTrace (pending : List ℕ) (P : ℕ) (hP : 0 < P)
    (sched : List (List ℕ))
    (hsched : List.Forall₂ (fun b ord => ord.Perm b) (chunksOf P pending) sched) :
    progressPairs (runTrace pending P sched)
      = (List.range pending.length).map (fun k => (k + 1, pending.length)) := by
  unfold runTrace
  rw [progressPairs_batchEvents _ 0 pending.length, sum_ord_lengths _ _ hsched,
    ← List.length_flatten, flatten_chunksOf P hP]
  apply List.map_congr_left
  intro a _
  simp

theorem complete_failure_throws_witness :
    (uploadLargeFileRun 3 ⟨[1], fun _ => true, false⟩).2
      = Except.error "Failed to complete upload" :=
  (complete_failure_throws 3 ⟨[1], fun _ => true, false⟩ (by decide)
    (by decide)).1

theorem chunksOf_pendingOf_disjoint (N : ℕ) (S : List ℕ) :
    List.Pairwise List.Disjoint (chunksOf PARALLEL_CHUNKS (pendingOf N S)) := by
  have hnd : (chunksOf PARALLEL_CHUNKS (pendingOf N S)).flatten.Nodup := by
    rw [flatten_chunksOf PARALLEL_CHUNKS (by decide)]
    exact pendingOf_nodup N S
  exact (List.nodup_flatten.mp hnd).2

theorem length_filter_not_add (p : ℕ → Bool) (l : List ℕ) :
    (l.filter (fun x => !(p x))).length + (l.filter p).length = l.length := by
  induction l with
  | nil => rfl
  | cons a l ih => by_cases h : p a <;> simp [List.filter, h] <;> omega

/-- Number of pending chunks: with a duplicate-free in-range status list,
the pending count and the received count partition `total_chunks`. -/
theorem pendingOf_length (N : ℕ) (S : List ℕ) (hnd : S.Nodup)
    (hsub : ∀ x ∈ S, x < N) :
    (pendingOf N S).length + S.length = N := by
  have hsplit := length_filter_not_add (fun i => S.contains i) (List.range N)
  rw [List.length_range] at hsplit
  have h2 : ((List.range N).filter (fun i => S.contains i)).length = S.length := by
    have hnd2 : ((List.range N).filter (fun i => S.contains i)).Nodup :=
      List.Nodup.filter _ (List.nodup_range N)
    have hts : ((List.range N).filter (fun i => S.contains i)).toFinset
        = S.toFinset := by
      ext a
      simp only [List.mem_toFinset, List.mem_filter, List.mem_range]
      constructor
      · intro h
        exact List.mem_of_elem_eq_true h.2
      · intro h
        exact ⟨hsub a h, List.elem_eq_true_of_mem h⟩
    have hc1 := List.toFinset_card_of_nodup hnd2
    have hc2 := List.toFinset_card_of_nodup hnd
    rw [hts, hc2] at hc1
    exact hc1.symm
  rw [h2] at hsplit
  show ((List.range N).filter (fun i => !(S.contains i))).length + S.length = N
  exact hsplit

theorem jsRound_mono (a b N : ℕ) (h : a ≤ b) :
    jsRound (a * 100) N ≤ jsRound (b * 100) N := by
  unfold jsRound
  apply Nat.div_le_div_right
  omega

theorem jsRound_le_100 (m N : ℕ) (hN : 0 < N) (h : m ≤ N) :
    jsRound (m * 100) N ≤ 100 := by
  unfold jsRound
  rw [Nat.div_le_iff_le_mul_add_pred (by omega)]
  omega

theorem jsRound_100 (N : ℕ) (hN : 0 < N) : jsRound (N * 100) N = 100 := by
  unfold jsRound
  rw [show 2 * (N * 100) + N = N + 2 * N * 100 by ring,
    Nat.add_mul_div_left N 100 (by omega),
    Nat.div_eq_of_lt (by omega)]

/-- C6: the pending indices are processed in consecutive batches of
`PARALLEL_CHUNKS = 3` — each batch nonempty and of size at most 3, all
but the last of size exactly 3, the batches concatenating back to the
pending list — and in every prefix of every interleaving of the run at
most `PARALLEL_CHUNKS` deliveries are in flight, and no delivery of a
later batch is issued before every delivery of every earlier batch has
settled. -/
theorem batching_bounded_parallelism (N : ℕ) (S : List ℕ)
    (sched : List (List ℕ))
    (hsched : List.Forall₂ (fun b ord => ord.Perm b)
      (chunksOf PARALLEL_CHUNKS (pendingOf N S)) sched) :
    (∀ b ∈ (chunksOf PARALLEL_CHUNKS (pendingOf N S)).dropLast,
        b.length = PARALLEL_CHUNKS)
    ∧ (∀ b ∈ chunksOf PARALLEL_CHUNKS (pendingOf N S),
        b.length ≤ PARALLEL_CHUNKS ∧ b ≠ [])
    ∧ (chunksOf PARALLEL_CHUNKS (pendingOf N S)).flatten = pendingOf N S
    ∧ (∀ pfx, pfx <+: runTrace (pendingOf N S) PARALLEL_CHUNKS sched →
        inFlight pfx ≤ PARALLEL_CHUNKS)
    ∧ (∀ pfx, pfx <+: runTrace (pendingOf N S) PARALLEL_CHUNKS sched →
        ∀ j k : ℕ, j < k →
          ∀ x ∈ (chunksOf PARALLEL_CHUNKS (pendingOf N S)).getD k [],
            Event.issue x ∈ pfx →
            ∀ y ∈ (chunksOf PARALLEL_CHUNKS (pendingOf N S)).getD j [],
              Event.settle y ∈ pfx) := by
  have hzip := List.forall₂_iff_zip.mp hsched
  have hmapfst : ((chunksOf PARALLEL_CHUNKS (pendingOf N S)).zip sched).map
      Prod.fst = chunksOf PARALLEL_CHUNKS (pendingOf N S) :=
    List.map_fst_zip _ _ (le_of_eq hzip.1)
  refine ⟨chunksOf_dropLast_length PARALLEL_CHUNKS (by decide) _,
    mem_chunksOf PARALLEL_CHUNKS (by decide) _,
    flatten_chunksOf PARALLEL_CHUNKS (by decide) _, ?_, ?_⟩
  · intro pfx hpfx
    have hlen : ∀ p ∈ (chunksOf PARALLEL_CHUNKS (pendingOf N S)).zip sched,
        p.1.length ≤ PARALLEL_CHUNKS ∧ p.2.length = p.1.length := by
      intro p hp
      obtain ⟨b, ord⟩ := p
      have hmem := List.mem_zip hp
      exact ⟨(mem_chunksOf PARALLEL_CHUNKS (by decide) _ b hmem.1).1,
        (hzip.2 hp).length_eq⟩
    have := issueCount_le_batchEvents PARALLEL_CHUNKS _ hlen 0
      (pendingOf N S).length pfx hpfx
    unfold inFlight
    omega
  · intro pfx hpfx j k hjk x hx hix y hy
    rw [← hmapfst] at hx hy
    exact batch_order _ 0 (pendingOf N S).length (fun p hp => hzip.2 hp)
      (by rw [hmapfst]; exact chunksOf_pendingOf_disjoint N S)
      pfx hpfx j k hjk x hx hix y hy

theorem batching_bounded_parallelism_witness :
    (chunksOf PARALLEL_CHUNKS (pendingOf 4 [])).flatten = pendingOf 4 [] := by
  have hs : List.Forall₂ (fun b ord => ord.Perm b)
      (chunksOf PARALLEL_CHUNKS (pendingOf 4 [])) [[2, 0, 1], [3]] := by
    rw [show chunksOf PARALLEL_CHUNKS (pendingOf 4 []) = [[0, 1, 2], [3]]
      from rfl]
    exact List.Forall₂.cons (by decide)
      (List.Forall₂.cons (by decide) List.Forall₂.nil)
  exact (batching_bounded_parallelism 4 [] [[2, 0, 1], [3]] hs).2.2.1

/-- C8 as stated is false: in the concrete run over pending `[0, 1]`
there is a single batch (`2 ≤ PARALLEL_CHUNKS`), yet the progress
callback fires after the first settle and again after the second — its
first invocation lies strictly between two chunk completions of the same
batch, and it fires twice while there is only one batch boundary. -/
theorem progress_batch_boundary_cex :
    chunksOf PARALLEL_CHUNKS [0, 1] = [[0, 1]]
    ∧ runTrace [0, 1] PARALLEL_CHUNKS [[0, 1]]
        = [Event.issue 0, Event.issue 1, Event.settle 0, Event.progress 1 2,
            Event.settle 1, Event.progress 2 2]
    ∧ (progressPairs (runTrace [0, 1] PARALLEL_CHUNKS [[0, 1]])).length = 2 :=
  ⟨rfl, rfl, rfl⟩

/-- C8 amended: the progress callback is invoked once after each
individual chunk delivery settles — inside batches, not only at batch
boundaries — and the invocations are serialized through the shared
`completed` counter: in every interleaving, the `(completed, total)`
pairs passed are exactly `(1, T), (2, T), …, (T, T)` in that order, so no
concurrent completions lose or duplicate an update. -/
theorem progress_per_chunk (pending : List ℕ) (sched : List (List ℕ))
    (hsched : List.Forall₂ (fun b ord => ord.Perm b)
      (chunksOf PARALLEL_CHUNKS pending) sched) :
    progressPairs (runTrace pending PARALLEL_CHUNKS sched)
      = (List.range pending.length).map (fun k => (k + 1, pending.length)) :=
  progressPairs_runTrace pending PARALLEL_CHUNKS (by decide) sched hsched

theorem progress_per_chunk_witness :
    progressPairs (runTrace [0, 1] PARALLEL_CHUNKS [[1, 0]]) = [(1, 2), (2, 2)] := by
  have hs : List.Forall₂ (fun b ord => ord.Perm b)
      (chunksOf PARALLEL_CHUNKS [0, 1]) [[1, 0]] := by
    rw [show chunksOf PARALLEL_CHUNKS [0, 1] = [[0, 1]] from rfl]
    exact List.Forall₂.cons (by decide) List.Forall₂.nil
  exact (progress_per_chunk [0, 1] [[1, 0]] hs).trans (by decide)

/-- C5: every percentage handed to the caller's `onProgress` equals
`Math.round(100 * (received-count + settled-in-this-run) / total_chunks)`
where the received count is the length of the (duplicate-free) status
list — cumulative across runs, not the fraction of calls made in this
run — so a resumed upload reports correct cumulative percentages from its
first invocation on.  The rounding is modelled in exact arithmetic. -/
theorem progress_percent_cumulative (N : ℕ) (S : List ℕ)
    (sched : List (List ℕ)) (hnd : S.Nodup)
    (hsched : List.Forall₂ (fun b ord => ord.Perm b)
      (chunksOf PARALLEL_CHUNKS (pendingOf N S)) sched) :
    reportedPercents S.length N
        (runTrace (pendingOf N S) PARALLEL_CHUNKS sched)
      = (List.range (pendingOf N S).length).map
          (fun k => jsRound ((S.length + (k + 1)) * 100) N) := by
  unfold reportedPercents
  rw [progressPairs_runTrace _ PARALLEL_CHUNKS (by decide) sched hsched,
    List.map_map]
  apply List.map_congr_left
  intro a _
  rfl

theorem progress_percent_cumulative_witness :
    reportedPercents ([0, 2, 4] : List ℕ).length 5
        (runTrace (pendingOf 5 [0, 2, 4]) PARALLEL_CHUNKS [[3, 1]])
      = [80, 100] := by
  have hs : List.Forall₂ (fun b ord => ord.Perm b)
      (chunksOf PARALLEL_CHUNKS (pendingOf 5 [0, 2, 4])) [[3, 1]] := by
    rw [show chunksOf PARALLEL_CHUNKS (pendingOf 5 [0, 2, 4]) = [[1, 3]]
      from rfl]
    exact List.Forall₂.cons (by decide) List.Forall₂.nil
  exact (progress_percent_cumulative 5 [0, 2, 4] [[3, 1]] (by decide) hs).trans
    (by decide)

/-- C10: with a duplicate-free in-range status response, the percentages
reported during one full run are nondecreasing, all at most 100 (they are
naturals, hence at least 0), and the report issued when the last pending
chunk settles is exactly 100. -/
theorem progress_monotone_complete (N : ℕ) (S : List ℕ)
    (sched : List (List ℕ)) (hnd : S.Nodup) (hsub : ∀ x ∈ S, x < N)
    (hsched : List.Forall₂ (fun b ord => ord.Perm b)
      (chunksOf PARALLEL_CHUNKS (pendingOf N S)) sched) :
    (reportedPercents S.length N
        (runTrace (pendingOf N S) PARALLEL_CHUNKS sched)).Sorted (· ≤ ·)
    ∧ (∀ p ∈ reportedPercents S.length N
        (runTrace (pendingOf N S) PARALLEL_CHUNKS sched), p ≤ 100)
    ∧ (pendingOf N S ≠ [] →
        (reportedPercents S.length N
          (runTrace (pendingOf N S) PARALLEL_CHUNKS sched)).getLast?
          = some 100) := by
  have hlen := pendingOf_length N S hnd hsub
  have hre : reportedPercents S.length N
      (runTrace (pendingOf N S) PARALLEL_CHUNKS sched)
      = (List.range (pendingOf N S).length).map
          (fun k => jsRound ((S.length + (k + 1)) * 100) N) := by
    unfold reportedPercents
    rw [progressPairs_runTrace _ PARALLEL_CHUNKS (by decide) sched hsched,
      List.map_map]
    apply List.map_congr_left
    intro a _
    rfl
  rw [hre]
  refine ⟨?_, ?_, ?_⟩
  · show List.Pairwise (· ≤ ·) _
    apply List.pairwise_map.mpr
    exact List.Pairwise.imp
      (fun hab => jsRound_mono _ _ N (by omega))
      (List.sorted_lt_range _)
  · intro p hp
    obtain ⟨k, hk, rfl⟩ := List.mem_map.mp hp
    have hkT : k < (pendingOf N S).length := List.mem_range.mp hk
    exact jsRound_le_100 (S.length + (k + 1)) N (by omega) (by omega)
  · intro hne
    have hTpos : 0 < (pendingOf N S).length := List.length_pos.mpr hne
    rw [show (pendingOf N S).length = ((pendingOf N S).length - 1) + 1
      by omega, List.range_succ, List.map_append, List.map_cons,
      List.map_nil, List.getLast?_concat]
    have : S.length + ((pendingOf N S).length - 1 + 1) = N := by omega
    rw [this, jsRound_100 N (by omega)]

theorem progress_monotone_complete_witness :
    (reportedPercents ([] : List ℕ).length 2
      (runTrace (pendingOf 2 []) PARALLEL_CHUNKS [[1, 0]])).getLast?
      = some 100 := by
  have hs : List.Forall₂ (fun b ord => ord.Perm b)
      (chunksOf PARALLEL_CHUNKS (pendingOf 2 [])) [[1, 0]] := by
    rw [show chunksOf PARALLEL_CHUNKS (pendingOf 2 []) = [[0, 1]] from rfl]
    exact List.Forall₂.cons (by decide) List.Forall₂.nil
  exact (progress_monotone_complete 2 [] [[1, 0]] (by decide) (by decide)
    hs).2.2 (by decide)

end ChunkedUpload
